import Mathlib

/-!
# movieqbot `cutter`: the frame buffer and the task worker

A shallow embedding of `src/cutter/cutter.cpp`.

* `AVFrame` keeps the three fields of libav's frame that the buffer reads:
  `pts`, `linesize[]` and `height`.
* `size_t` values are naturals reduced modulo `2^64` at every operation.
* A `double` is the rational number it denotes, and `to_double` rounds a rational to
  the nearest binary64 number, ties to even: `pts*time_base` is the rounded product
  of the converted `pts` and the time base.  A rational that is not a binary64
  number stands for the nearest one, as `1/25` for `double(1)/25` (line 244) and
  `2/5` for `400/1e3` (line 538).  Time bases are finite numbers (a stream time base
  has a non-zero denominator), so no NaN arises; an overflowing product is `2^1024`,
  which compares as infinity does.
* The buffer is a monitor (one mutex, one condition variable).  Every method
  is embedded as the function that runs it, with the lock held, up to the next
  `update.wait(lock)` or up to its return.  Interleavings of the decoder thread
  and the worker thread are the paths of the step relation `Step`.
-/

namespace Cutter

/-! ## Frames and their footprint -/

/-- The number of planes of a libav frame (`AV_NUM_DATA_POINTERS` in libavutil). -/
def AV_NUM_DATA_POINTERS : Nat := 8

/-- The modulus of `size_t` arithmetic on the 64 bit targets the program is built for. -/
def SIZE_MOD : Nat := 2 ^ 64

/-- The fields of libav's `AVFrame` read by the buffer.  `linesize` holds the
`int linesize[AV_NUM_DATA_POINTERS]` array. -/
structure AVFrame where
  pts : Int
  linesize : List Int
  height : Int
  deriving DecidableEq, Repr

/-- The function `get_video_frame_size` (lines 71-81): the `int` line sizes are added into a
`size_t`, the sum is multiplied by a non-zero height, and a zero result is
replaced by 1000. -/
def get_video_frame_size (avframe : AVFrame) : Nat :=
  let size := (avframe.linesize.take AV_NUM_DATA_POINTERS).foldl
    (fun (size : Nat) (l : Int) => (((size : Int) + l) % (SIZE_MOD : Int)).toNat) 0
  let size := if avframe.height ≠ 0 then
    (((size : Int) * avframe.height) % (SIZE_MOD : Int)).toNat else size
  if size = 0 then 1000 else size

/-! ## The buffer -/

/-- The constant `Buffer::max_size` (line 156), 4GB. -/
def max_size : Nat := 4 * 1000 * 1000 * 1000

/-- The data members of `Buffer` (lines 156-163) with their initial values; a null
pointer in the deque is `none`. -/
structure Buffer where
  time_base : ℚ := 1
  q : List (Option AVFrame) := []
  current_size : Nat := 0
  cont_flag : Bool := true
  deriving DecidableEq

/-- The number of halvings that bring `n` below 2: the integer part of the binary
logarithm of `n`, for `n ≤ fuel`. -/
def log2_floor : Nat → Nat → Nat
  | 0, _ => 0
  | fuel + 1, n => if n < 2 then 0 else log2_floor fuel (n / 2) + 1

/-- The binary64 (`double`) number nearest to a rational, ties to even (the rounding of
every IEEE 754 operation and conversion): 53 significant bits, least exponent -1022
with gradual underflow; a result of magnitude `2^1024` stands for infinity. -/
def to_double (x : ℚ) : ℚ :=
  let a := x.num.natAbs
  let d := x.den
  if a = 0 then 0
  else
    let e0 : Int := (log2_floor a a : Int) - (log2_floor d d : Int)
    let e : Int :=
      if (if 0 ≤ e0 then d * 2 ^ e0.toNat ≤ a else d ≤ a * 2 ^ (-e0).toNat) then e0
      else e0 - 1
    let shift : Int := max e (-1022) - 52
    let n : Nat := if 0 ≤ shift then a else a * 2 ^ (-shift).toNat
    let m : Nat := if 0 ≤ shift then d * 2 ^ shift.toNat else d
    let quot : Nat := n / m
    let rem : Nat := n % m
    let mant : Nat :=
      if 2 * rem < m then quot else if m < 2 * rem then quot + 1 else quot + quot % 2
    let mag : ℚ :=
      if 0 ≤ shift then ((mant * 2 ^ shift.toNat : Nat) : ℚ)
      else mkRat mant (2 ^ (-shift).toNat)
    let mag1 : ℚ := if (2 : ℚ) ^ 1024 ≤ mag then (2 : ℚ) ^ 1024 else mag
    if x.num < 0 then -mag1 else mag1

/-- The expression `f->pts*time_base` (lines 126, 136, 142, 144): the `int64_t` is
converted to `double` and multiplied by the `double` time base. -/
def converted (time_base : ℚ) (f : AVFrame) : ℚ :=
  to_double (to_double (f.pts : ℚ) * to_double time_base)

/-- The converted time stamp `f->pts*time_base` of a frame in the buffer. -/
def Buffer.ts (b : Buffer) (f : AVFrame) : ℚ := converted b.time_base f

/-- The method `Buffer::set_time_base` (lines 91-95). -/
def Buffer.set_time_base (b : Buffer) (new_time_base : ℚ) : Buffer :=
  { b with time_base := new_time_base }

/-- The condition of the wait loop of `Buffer::push` (line 106). -/
def Buffer.push_waits (b : Buffer) (avframe : AVFrame) : Bool :=
  decide ((b.current_size + get_video_frame_size avframe) % SIZE_MOD > max_size)
    && !b.q.isEmpty && b.cont_flag

/-- The method `Buffer::push` (lines 96-116).  The result is `none` when the caller
waits on the condition variable (line 107), otherwise the buffer left by the
call. -/
def Buffer.push (b : Buffer) : Option AVFrame → Option Buffer
  | none => some { b with q := b.q ++ [none] }
  | some avframe =>
    if b.push_waits avframe then none
    else if b.cont_flag then
      some { b with
        q := b.q ++ [some avframe]
        current_size := (b.current_size + get_video_frame_size avframe) % SIZE_MOD }
    else some b

/-- The method `Buffer::signal_finish` (lines 149-154). -/
def Buffer.signal_finish (b : Buffer) : Buffer :=
  { b with cont_flag := false }

/-- How the first loop of `Buffer::get_sequence` (lines 120-135) leaves the deque. -/
inductive EvictResult where
  | ready (q : List (Option AVFrame)) (current_size : Nat)
  | empty (current_size : Nat)
  | null_deref
  deriving DecidableEq

/-- The first loop of `Buffer::get_sequence` (lines 120-135), run until it breaks
(`ready`), until the deque is empty and the caller waits (`empty`, line 123), or
until `q.front()->pts` reads through a null pointer. -/
def evict_loop (time_base start : ℚ) : List (Option AVFrame) → Nat → EvictResult
  | [], current_size => .empty current_size
  | x :: rest, current_size =>
    if (x :: rest).getLast? = some none then .ready (x :: rest) current_size
    else
      match x with
      | none => .null_deref
      | some f =>
        if converted time_base f < to_double start then
          evict_loop time_base start rest
            ((current_size + SIZE_MOD - get_video_frame_size f) % SIZE_MOD)
        else .ready (x :: rest) current_size

/-- The condition of the second wait loop of `Buffer::get_sequence` (line 136). -/
def Buffer.tail_waits (b : Buffer) (end_ : ℚ) : Bool :=
  match b.q.getLast? with
  | some (some f) => decide (b.ts f < to_double end_)
  | _ => false

/-- The final loop of `Buffer::get_sequence` (lines 138-147) over the deque. -/
def scan (time_base start end_ : ℚ) : List (Option AVFrame) → List AVFrame → List AVFrame
  | [], sequence => sequence
  | none :: _, sequence => sequence
  | some f :: rest, sequence =>
    if converted time_base f < to_double start then scan time_base start end_ rest sequence
    else if converted time_base f > to_double end_ then sequence
    else scan time_base start end_ rest (sequence ++ [f])

/-- Where a call of `Buffer::get_sequence` stands when it releases the lock. -/
inductive GetResult where
  | returned (b : Buffer) (sequence : List AVFrame)
  | wait_nonempty (b : Buffer)
  | wait_tail (b : Buffer)
  | null_deref
  deriving DecidableEq

/-- The method `Buffer::get_sequence` from line 136 on: the wait for the tail and
the final loop. -/
def Buffer.await_tail (b : Buffer) (start end_ : ℚ) (sequence : List AVFrame) : GetResult :=
  if b.tail_waits end_ then .wait_tail b
  else .returned b (scan b.time_base start end_ b.q sequence)

/-- The method `Buffer::get_sequence` (lines 117-148) from its entry, or from the
wake-up of the wait of line 123. -/
def Buffer.get_sequence (b : Buffer) (start end_ : ℚ) (sequence : List AVFrame) : GetResult :=
  match evict_loop b.time_base start b.q b.current_size with
  | .empty current_size => .wait_nonempty { b with q := [], current_size := current_size }
  | .null_deref => .null_deref
  | .ready q current_size =>
    Buffer.await_tail { b with q := q, current_size := current_size } start end_ sequence

/-- The decoder pushes one entry after the other (lines 316, 336); `none` when
one of the pushes has to wait. -/
def push_all : Buffer → List (Option AVFrame) → Option Buffer
  | b, [] => some b
  | b, x :: rest =>
    match b.push x with
    | none => none
    | some b1 => push_all b1 rest

/-- A 640x360 planar frame with the given time stamp. -/
def frame_at (pts : Int) : AVFrame :=
  { pts := pts, linesize := [640, 320, 320, 0, 0, 0, 0, 0], height := 360 }

/-- The stream of the end-to-end example: seven frames, half a second apart. -/
def example_stream : List AVFrame :=
  [frame_at 0, frame_at 1, frame_at 2, frame_at 3, frame_at 4, frame_at 5, frame_at 6]

/-- The buffer of the end-to-end example once the decoder has pushed the whole
stream and the end marker. -/
def example_buffer : Buffer :=
  { time_base := 1 / 2
    q := example_stream.map some ++ [none]
    current_size := 7 * 460800
    cont_flag := true }

/-! ## The two threads -/

/-- Where the worker thread stands: outside `get_sequence`, waiting at line 123,
waiting at line 137, or stopped by a read through a null pointer at line 126. -/
inductive Consumer where
  | idle
  | at_nonempty (start end_ : ℚ)
  | at_tail (start end_ : ℚ)
  | crashed
  deriving DecidableEq

/-- The buffer together with its two clients: `pending` is what the decoder thread has
still to push (`Decoder::decode`, lines 307-317: the frames, then one null pointer),
`windows` the calls of `get_sequence` the worker has still to make, `results` the
sequences returned so far. -/
structure Sys where
  buffer : Buffer
  pending : List (Option AVFrame)
  consumer : Consumer
  windows : List (ℚ × ℚ)
  results : List (List AVFrame)
  deriving DecidableEq

/-- The worker after `get_sequence` released the lock. -/
def Sys.resume (s : Sys) (start end_ : ℚ) : GetResult → Sys
  | .returned b sequence =>
    { s with buffer := b, consumer := .idle, results := s.results ++ [sequence] }
  | .wait_nonempty b => { s with buffer := b, consumer := .at_nonempty start end_ }
  | .wait_tail b => { s with buffer := b, consumer := .at_tail start end_ }
  | .null_deref => { s with consumer := .crashed }

/-- The decoder thread completes its next `push`; `none` when it has nothing left to
push or the push waits. -/
def decoder_step (s : Sys) : Option Sys :=
  match s.pending with
  | [] => none
  | x :: rest => (s.buffer.push x).map (fun b => { s with buffer := b, pending := rest })

/-- The worker thread takes the lock: it enters its next `get_sequence` call on an
empty vector (line 457), or wakes up inside the call it is waiting in. -/
def worker_step (s : Sys) : Option Sys :=
  match s.consumer with
  | .idle =>
    match s.windows with
    | [] => none
    | (start, end_) :: rest =>
      some (Sys.resume { s with windows := rest } start end_
        (s.buffer.get_sequence start end_ []))
  | .at_nonempty start end_ => some (s.resume start end_ (s.buffer.get_sequence start end_ []))
  | .at_tail start end_ => some (s.resume start end_ (s.buffer.await_tail start end_ []))
  | .crashed => none

/-- The call of `signal_finish` (line 344). -/
def finish_step (s : Sys) : Sys :=
  { s with buffer := s.buffer.signal_finish }

/-- One atomic step of the program on the buffer. -/
inductive Step : Sys → Sys → Prop where
  | decoder {s t : Sys} (h : decoder_step s = some t) : Step s t
  | worker {s t : Sys} (h : worker_step s = some t) : Step s t
  | finish (s : Sys) : Step s (finish_step s)

/-- The states an interleaving of the two threads reaches from `s`. -/
def Reach (s t : Sys) : Prop := Relation.ReflTransGen Step s t

/-- The program started on a stream and a task list: a fresh buffer with its time
base set (line 244), the decoder about to push the frames and then the end marker. -/
def Sys.init (time_base : ℚ) (frames : List AVFrame) (windows : List (ℚ × ℚ)) : Sys :=
  { buffer := Buffer.set_time_base {} time_base
    pending := frames.map some ++ [none]
    consumer := .idle
    windows := windows
    results := [] }

/-- The successors of a state by a step of one of the two threads. -/
def thread_steps (s : Sys) : List Sys :=
  (decoder_step s).toList ++ (worker_step s).toList

/-- Breadth first exploration: `n` rounds of thread steps from the states of `l`. -/
def explore : Nat → List Sys → List Sys
  | 0, l => l
  | n + 1, l => explore n (l ++ ((l.flatMap thread_steps).filter (fun t => decide (t ∉ l))).dedup)

/-- The thread that takes the next step of a schedule. -/
inductive Thread where
  | decoder
  | worker
  | finish
  deriving DecidableEq

/-- The state a schedule leads to; `none` when a scheduled thread cannot step. -/
def run_schedule : Sys → List Thread → Option Sys
  | s, [] => some s
  | s, .decoder :: rest => (decoder_step s).bind (fun t => run_schedule t rest)
  | s, .worker :: rest => (worker_step s).bind (fun t => run_schedule t rest)
  | s, .finish :: rest => run_schedule (finish_step s) rest

/-- The states of the end-to-end example when the window (0, 0.4) is requested first. -/
def example_states_before : List Sys :=
  explore 12 [Sys.init (1 / 2) example_stream [(0, 2 / 5), (1 / 2, 2)]]

/-- The states of the end-to-end example when the window (0, 0.4) is requested last. -/
def example_states_after : List Sys :=
  explore 12 [Sys.init (1 / 2) example_stream [(1 / 2, 2), (0, 2 / 5)]]

/-- The schedule that lets the decoder push the whole stream and the end marker before
the worker makes its two calls. -/
def decoder_first : List Thread :=
  [.decoder, .decoder, .decoder, .decoder, .decoder, .decoder, .decoder, .decoder,
    .worker, .worker]

/-- The schedule in which the worker makes its first call when only the first frame has
arrived. -/
def worker_early : List Thread :=
  [.decoder, .worker, .decoder, .decoder, .decoder, .decoder, .worker, .worker,
    .decoder, .decoder, .decoder]

/-- The end-to-end example after the schedule `worker_early`, the window (0, 0.4)
requested first. -/
def example_final_before : Sys :=
  { buffer :=
      { time_base := 1 / 2
        q := [some (frame_at 1), some (frame_at 2), some (frame_at 3), some (frame_at 4),
          some (frame_at 5), some (frame_at 6), none]
        current_size := 6 * 460800
        cont_flag := true }
    pending := []
    consumer := .idle
    windows := []
    results := [[frame_at 0], [frame_at 1, frame_at 2, frame_at 3, frame_at 4]] }

/-- The end-to-end example after the schedule `worker_early`, the window (0, 0.4)
requested last. -/
def example_final_after : Sys :=
  { example_final_before with
    results := [[frame_at 1, frame_at 2, frame_at 3, frame_at 4], []] }

/-- A 640x360 frame stored bottom-up: libav gives such a frame negative line sizes. -/
def flipped_frame_at (pts : Int) : AVFrame :=
  { pts := pts, linesize := [-640, -320, -320, 0, 0, 0, 0, 0], height := 360 }

/-- A 320x180 planar frame. -/
def small_frame_at (pts : Int) : AVFrame :=
  { pts := pts, linesize := [320, 160, 160, 0, 0, 0, 0, 0], height := 180 }

/-- A 7680x4320 planar frame; its footprint is 66355200. -/
def frame_8k (pts : Int) : AVFrame :=
  { pts := pts, linesize := [7680, 3840, 3840, 0, 0, 0, 0, 0], height := 4320 }

/-- A stream of a hundred 8K frames at 25 frames a second. -/
def stream_8k : List AVFrame :=
  (List.range 100).map (fun i => frame_8k (i : Int))

/-- The state of the 8K stream in which sixty frames are buffered and the worker waits
for the end of the window (0, 3). -/
def stuck_8k : Sys :=
  { buffer :=
      { time_base := 1 / 25
        q := (stream_8k.take 60).map some
        current_size := 60 * 66355200
        cont_flag := true }
    pending := (stream_8k.drop 60).map some ++ [none]
    consumer := .at_tail 0 3
    windows := []
    results := [] }

/-- Every null pointer of the list is its last entry. -/
def marker_last (l : List (Option AVFrame)) : Prop :=
  ∀ pre post, l = pre ++ none :: post → post = []

/-- The sum of the footprints of a list of frames. -/
def footprint (frames : List AVFrame) : Nat :=
  (frames.map get_video_frame_size).sum

/-- The buffer `b1` is the buffer `b` after the frames `ev` have been evicted from its
head by a call with start `start`: lines 126-131, once for every frame. -/
structure Evicted (b : Buffer) (start : ℚ) (ev : List AVFrame) (b1 : Buffer) : Prop where
  q_eq : b.q = ev.map some ++ b1.q
  before : ∀ f ∈ ev, b.ts f < to_double start
  size_eq : (b1.current_size + footprint ev) % SIZE_MOD = b.current_size % SIZE_MOD
  size_lt : b.current_size < SIZE_MOD → b1.current_size < SIZE_MOD
  time_base_eq : b1.time_base = b.time_base
  cont_flag_eq : b1.cont_flag = b.cont_flag

/-- The bookkeeping of one call `get_sequence(start, end_)` made on the buffer `b`, which
held the frames `fs`, while the decoder pushes the frames `more`: `ev` are the frames
evicted so far, `adm` the frames admitted so far, `qf` the frames in the deque and `rest`
the frames the decoder has still to push. -/
def call_data (b : Buffer) (fs more : List AVFrame) (start : ℚ) (t : Sys)
    (ev adm qf rest : List AVFrame) : Prop :=
  t.buffer.q = qf.map some ∧ t.pending = rest.map some ∧ fs ++ adm = ev ++ qf
    ∧ (adm ++ rest).Sublist more
    ∧ (qf ++ rest).Pairwise (fun f g => b.ts f ≤ b.ts g)
    ∧ (∀ f ∈ ev, b.ts f < to_double start)
    ∧ (t.buffer.current_size + footprint ev) % SIZE_MOD
        = (b.current_size + footprint adm) % SIZE_MOD
    ∧ (b.current_size < SIZE_MOD → t.buffer.current_size < SIZE_MOD)
    ∧ t.buffer.time_base = b.time_base

/-- The invariant of one call `get_sequence(start, end_)`: the bookkeeping of `call_data`,
and once the call is past its first loop the deque is not empty and holds no frame
before `start`. -/
def call_inv (b : Buffer) (fs more : List AVFrame) (start end_ : ℚ) (t : Sys) : Prop :=
  ∃ ev adm qf rest, call_data b fs more start t ev adm qf rest
    ∧ ((t.consumer = .idle ∧ t.windows = [(start, end_)] ∧ t.results = [])
      ∨ (t.consumer = .at_nonempty start end_ ∧ t.windows = [] ∧ t.results = [])
      ∨ (t.windows = []
          ∧ ((t.consumer = .at_tail start end_ ∧ t.results = [])
            ∨ (t.consumer = .idle ∧ t.results ≠ []))
          ∧ qf ≠ [] ∧ ∀ f ∈ qf, to_double start ≤ b.ts f))

/-- A buffer that holds the first two frames of the end-to-end example. -/
def example_call_start : Buffer :=
  { time_base := 1 / 2
    q := [some (frame_at 0), some (frame_at 1)]
    current_size := 2 * 460800
    cont_flag := true }

/-- The state after `get_sequence(0.5, 1.5)` on `example_call_start`, the decoder having
pushed two more frames while the call waited. -/
def example_call_end : Sys :=
  { buffer :=
      { time_base := 1 / 2
        q := [some (frame_at 1), some (frame_at 2), some (frame_at 3)]
        current_size := 3 * 460800
        cont_flag := true }
    pending := [some (frame_at 4)]
    consumer := .idle
    windows := []
    results := [[frame_at 1, frame_at 2, frame_at 3]] }

/-! ## The task file and the worker -/

/-- The successive results of `getline` on the task file (line 527): every line with
its newline, the last line without one when the file does not end in a newline. -/
def read_lines : List Char → List (List Char)
  | [] => []
  | c :: cs =>
    if c = '\n' then [c] :: read_lines cs
    else
      match read_lines cs with
      | [] => [[c]]
      | l :: ls => (c :: l) :: ls

/-- The loop of `split` (lines 477-494) from index `i` on: the characters as the loop
leaves them and the indices it pushes.  The counter `int i` is a natural number here,
which is what it is on lines of less than `2^31` characters. -/
def split_loop : List Char → Nat → Bool → List Char × List Nat
  | [], _, _ => ([], [])
  | c :: cs, i, started =>
    if c = ' ' then
      let r := split_loop cs (i + 1) false
      ((if started then Char.ofNat 0 else c) :: r.1, r.2)
    else
      let r := split_loop cs (i + 1) true
      (c :: r.1, if started then r.2 else i :: r.2)

/-- The function `split` (lines 466-496) on a line of `len = line.length` characters: the
line as the call leaves it, and the returned pointers as indices into the line. -/
def split (line : List Char) : List Char × List Nat :=
  let lead := (line.takeWhile (fun c => c = ' ')).length
  let body := line.drop lead
  let r := split_loop body 0 true
  (line.take lead ++ r.1,
    (if body.length > 0 then [lead] else []) ++ r.2.map (fun i => lead + i))

/-- The C string at an index of the line buffer, which `getline` ends with a NUL. -/
def c_str (buffer : List Char) (index : Nat) : List Char :=
  (buffer.drop index).takeWhile (fun c => c ≠ Char.ofNat 0)

/-- The fields `split` returns, each read as a C string in the line as `split` leaves
it. -/
def split_fields (line : List Char) : List (List Char) :=
  (split line).2.map (c_str (split line).1)

/-- Following the specification: the maximal runs of non-space characters of a line, from
left to right.  They are the pieces of the line between its spaces, without the empty
pieces. -/
def nonspace_runs (line : List Char) : List (List Char) :=
  (line.splitOn ' ').filter (fun run => !run.isEmpty)

/-- What the worker calls outside `cutter.cpp`, on a state `σ` of the rest of the
program: libc's `strtoul` in base 10, a completed call of `Buffer::get_sequence` on an
empty vector (`none` when the call never returns), and the libav encoder session of
lines 460-463 (`some` message when it throws). -/
structure World (σ : Type) where
  strtoul : List Char → Nat
  get_sequence : σ → ℚ → ℚ → Option (σ × List AVFrame)
  encoder : σ → List Char → List AVFrame → σ × Option String

/-- How a call ends: it returns, it throws a message, or it never returns. -/
inductive Outcome where
  | finished
  | thrown (message : String)
  | blocked
  deriving DecidableEq

/-- The function `encode` (lines 453-464). -/
def encode {σ : Type} (w : World σ) (dest : List Char) (st : σ) (start end_ : ℚ) :
    σ × Outcome :=
  match w.get_sequence st start end_ with
  | none => (st, .blocked)
  | some (st1, frames) =>
    if frames.isEmpty then (st1, .thrown "No frames in this interval found")
    else
      match w.encoder st1 dest frames with
      | (st2, none) => (st2, .finished)
      | (st2, some message) => (st2, .thrown message)

/-- The four values `Worker::run` reads from a line (lines 534-537). -/
structure Task where
  id : Nat
  gifname : List Char
  start : Nat
  end_ : Nat
  deriving DecidableEq

/-- Lines 531-537 of `Worker::run`: the task of a line, `none` when `split` does not
return four fields. -/
def parse_task {σ : Type} (w : World σ) (line : List Char) : Option Task :=
  let splitted := split line
  if splitted.2.length ≠ 4 then none
  else
    some
      { id := w.strtoul (c_str splitted.1 (splitted.2.getD 0 0))
        gifname := c_str splitted.1 (splitted.2.getD 1 0)
        start := w.strtoul (c_str splitted.1 (splitted.2.getD 2 0))
        end_ := w.strtoul (c_str splitted.1 (splitted.2.getD 3 0)) }

/-- The text `fprintf` writes at line 539. -/
def report_line (t : Task) : List Char :=
  Nat.toDigits 10 t.id ++ [' '] ++ t.gifname ++ [' '] ++ Nat.toDigits 10 t.start ++ [' ']
    ++ Nat.toDigits 10 t.end_ ++ ['\n']

/-- The state of the rest of the program, the texts written to the report, and how the
run ended. -/
structure Run (σ : Type) where
  world : σ
  report : List (List Char)
  outcome : Outcome

/-- The loop of `Worker::run` (lines 527-541) over the lines `getline` returns. -/
def Worker.run_lines {σ : Type} (w : World σ) :
    List (List Char) → σ → List (List Char) → Run σ
  | [], st, report => { world := st, report := report, outcome := .finished }
  | line :: rest, st, report =>
    if line.length = 0 then Worker.run_lines w rest st report
    else
      match parse_task w line with
      | none => { world := st, report := report, outcome := .thrown "Bad task format" }
      | some t =>
        match encode w t.gifname st ((t.start : ℚ) / 1000) ((t.end_ : ℚ) / 1000) with
        | (st1, .finished) => Worker.run_lines w rest st1 (report ++ [report_line t])
        | (st1, out) => { world := st1, report := report, outcome := out }

/-- The method `Worker::run` (lines 523-544) on the content of the task file; the report
file is opened empty (line 504). -/
def Worker.run {σ : Type} (w : World σ) (file : List Char) (st : σ) : Run σ :=
  Worker.run_lines w (read_lines file) st []

/-- The value of the decimal digits a string starts with: what `strtoul` returns on an
unsigned number that fits 64 bits. -/
def leading_digits (s : List Char) : Nat :=
  (s.takeWhile Char.isDigit).foldl (fun n c => 10 * n + (c.toNat - '0'.toNat)) 0

/-- A world for examples: the decoder has finished, so `get_sequence` is the run of
`Buffer.get_sequence` on the buffer, and the encoder does not fail. -/
def example_world : World Buffer :=
  { strtoul := leading_digits
    get_sequence := fun b start end_ =>
      match b.get_sequence start end_ [] with
      | .returned b1 sequence => some (b1, sequence)
      | _ => none
    encoder := fun b _ _ => (b, none) }

/-! ## Lemmas on the buffer methods -/

/-- The rounding of `pts*time_base` decides at the edge of a window.  At 25 frames a
second the frame with `pts = 35` is converted to 1.4000000000000001, above the window
end `1400/1e3`, and at 30 frames a second the frame with `pts = 111` is converted to
3.6999999999999997, below the window start `3700/1e3`; the exact products are 7/5 and
37/10. -/
theorem converted_is_rounded :
    to_double (1400 / 1000) < converted (1 / 25) { pts := 35, linesize := [], height := 0 }
      ∧ converted (1 / 30) { pts := 111, linesize := [], height := 0 } < to_double (3700 / 1000)
      ∧ to_double (1 / 25) = 5764607523034235 / 144115188075855872
      ∧ converted (1 / 2) { pts := 3, linesize := [], height := 0 } = 3 / 2 := by
  decide!

/-- The calls at the two edges of `converted_is_rounded`.  With time base 1/25 and the
window 1000 ms to 1400 ms the frame with `pts = 35` is left out; with time base 1/30 and
a window that starts at 3700 ms the frame with `pts = 111` is evicted. -/
theorem get_sequence_at_rounded_edges :
    ({ time_base := 1 / 25
       q := [some (frame_at 24), some (frame_at 25), some (frame_at 34), some (frame_at 35),
         some (frame_at 36), none]
       current_size := 5 * 460800 } : Buffer).get_sequence (1000 / 1000) (1400 / 1000) []
      = .returned
          { time_base := 1 / 25
            q := [some (frame_at 24), some (frame_at 25), some (frame_at 34),
              some (frame_at 35), some (frame_at 36), none]
            current_size := 5 * 460800 }
          [frame_at 25, frame_at 34]
    ∧ ({ time_base := 1 / 30
         q := [some (frame_at 110), some (frame_at 111), some (frame_at 112),
           some (frame_at 120)]
         current_size := 4 * 460800 } : Buffer).get_sequence (3700 / 1000) (3900 / 1000) []
      = .returned
          { time_base := 1 / 30
            q := [some (frame_at 112), some (frame_at 120)]
            current_size := 2 * 460800 }
          [frame_at 112] := by
  decide!

theorem push_all_append (b : Buffer) (xs ys : List (Option AVFrame)) :
    push_all b (xs ++ ys) = (push_all b xs).bind (fun b1 => push_all b1 ys) := by
  induction xs generalizing b with
  | nil => simp [push_all]
  | cons x xs ih =>
    simp only [List.cons_append, push_all]
    cases b.push x with
    | none => simp
    | some b1 => simpa using ih b1

theorem push_some_eq (b b1 : Buffer) (x : Option AVFrame) (hc : b.cont_flag = true)
    (h : b.push x = some b1) :
    b1.q = b.q ++ [x] ∧ b1.time_base = b.time_base ∧ b1.cont_flag = true := by
  cases x with
  | none =>
    simp only [Buffer.push, Option.some.injEq] at h
    subst h
    simp [hc]
  | some f =>
    simp only [Buffer.push, hc, if_true] at h
    split at h
    · simp at h
    · simp only [Option.some.injEq] at h
      subst h
      simp [hc]

theorem push_all_eq (xs : List (Option AVFrame)) (b b1 : Buffer) (hc : b.cont_flag = true)
    (h : push_all b xs = some b1) :
    b1.q = b.q ++ xs ∧ b1.time_base = b.time_base ∧ b1.cont_flag = true := by
  induction xs generalizing b with
  | nil =>
    simp only [push_all, Option.some.injEq] at h
    subst h
    simp [hc]
  | cons x xs ih =>
    simp only [push_all] at h
    cases hx : b.push x with
    | none => simp [hx] at h
    | some b2 =>
      simp only [hx] at h
      obtain ⟨hq, ht, hc2⟩ := push_some_eq b b2 x hc hx
      obtain ⟨hq1, ht1, hc1⟩ := ih b2 hc2 h
      refine ⟨?_, ?_, hc1⟩
      · rw [hq1, hq]; simp
      · rw [ht1, ht]

theorem getLast?_cons_end_marker (x : Option AVFrame) (rest : List (Option AVFrame)) :
    (x :: (rest ++ [none])).getLast? = some none := by
  have h : x :: (rest ++ [none]) = (x :: rest) ++ [none] := rfl
  rw [h, List.getLast?_append]
  simp

theorem evict_loop_end_marker (time_base start : ℚ) (q : List (Option AVFrame)) (cs : Nat) :
    evict_loop time_base start (q ++ [none]) cs = .ready (q ++ [none]) cs := by
  cases q with
  | nil => simp [evict_loop]
  | cons x rest =>
    simp only [List.cons_append]
    simp [evict_loop, getLast?_cons_end_marker]

theorem tail_waits_end_marker (b : Buffer) (end_ : ℚ) (q : List (Option AVFrame))
    (h : b.q = q ++ [none]) : b.tail_waits end_ = false := by
  simp [Buffer.tail_waits, h]

theorem scan_cons_some (time_base start end_ : ℚ) (f : AVFrame)
    (rest : List (Option AVFrame)) (sequence : List AVFrame) :
    scan time_base start end_ (some f :: rest) sequence
      = if converted time_base f < to_double start then scan time_base start end_ rest sequence
        else if converted time_base f > to_double end_ then sequence
        else scan time_base start end_ rest (sequence ++ [f]) := rfl

/-- On frames in time stamp order the final loop of `get_sequence` collects exactly the
frames inside the window, provided the loop stops where the frames end. -/
theorem scan_sorted (time_base start end_ : ℚ) (frames : List AVFrame)
    (tail : List (Option AVFrame))
    (hsorted : frames.Pairwise
      (fun f g => converted time_base f ≤ converted time_base g))
    (htail : ∀ sequence, scan time_base start end_ tail sequence = sequence)
    (sequence : List AVFrame) :
    scan time_base start end_ (frames.map some ++ tail) sequence
      = sequence ++ frames.filter
          (fun f => decide (to_double start ≤ converted time_base f
            ∧ converted time_base f ≤ to_double end_)) := by
  induction frames generalizing sequence with
  | nil => simp [htail]
  | cons f rest ih =>
    rw [List.pairwise_cons] at hsorted
    obtain ⟨hf, hrest⟩ := hsorted
    rw [List.map_cons, List.cons_append, scan_cons_some]
    by_cases h1 : converted time_base f < to_double start
    · rw [if_pos h1, ih hrest]
      have : ¬ to_double start ≤ converted time_base f := not_le.mpr h1
      simp [List.filter_cons, this]
    · rw [if_neg h1]
      by_cases h2 : converted time_base f > to_double end_
      · rw [if_pos h2]
        have hnil : (f :: rest).filter
            (fun f => decide (to_double start ≤ converted time_base f
              ∧ converted time_base f ≤ to_double end_))
            = [] := by
          rw [List.filter_eq_nil_iff]
          intro g hg
          have hge : converted time_base f ≤ converted time_base g := by
            rcases List.mem_cons.mp hg with rfl | hg
            · exact le_refl _
            · exact hf g hg
          have : ¬ converted time_base g ≤ to_double end_ := not_le.mpr (lt_of_lt_of_le h2 hge)
          simp [this]
        rw [hnil]; simp
      · rw [if_neg h2, ih hrest]
        have h3 : to_double start ≤ converted time_base f := not_lt.mp h1
        have h4 : converted time_base f ≤ to_double end_ := not_lt.mp h2
        simp [List.filter_cons, h3, h4]

theorem get_video_frame_size_lt (f : AVFrame) : get_video_frame_size f < SIZE_MOD := by
  have hpos : (0 : Int) < (SIZE_MOD : Int) := by simp [SIZE_MOD]
  have hmod : ∀ x : Int, (x % (SIZE_MOD : Int)).toNat < SIZE_MOD := by
    intro x
    have h1 := Int.emod_lt_of_pos x hpos
    have h2 := Int.emod_nonneg x (ne_of_gt hpos)
    omega
  have hfold : ∀ (l : List Int) (init : Nat), init < SIZE_MOD →
      l.foldl (fun (size : Nat) (l : Int) => (((size : Int) + l) % (SIZE_MOD : Int)).toNat) init
        < SIZE_MOD := by
    intro l
    induction l with
    | nil => intro init h; simpa using h
    | cons x l ih => intro init _; exact ih _ (hmod _)
  have h0 : (0 : Nat) < SIZE_MOD := by simp [SIZE_MOD]
  have h1000 : (1000 : Nat) < SIZE_MOD := by simp [SIZE_MOD]
  unfold get_video_frame_size
  simp only
  split_ifs <;> first | exact h1000 | exact hmod _ | exact hfold _ 0 h0

theorem evict_loop_ready (time_base start : ℚ) (q : List (Option AVFrame)) :
    ∀ (cs : Nat) (q1 : List (Option AVFrame)) (cs1 : Nat),
      evict_loop time_base start q cs = .ready q1 cs1 →
      ∃ ev : List AVFrame, q = ev.map some ++ q1
        ∧ (∀ f ∈ ev, converted time_base f < to_double start)
        ∧ (cs1 + footprint ev) % SIZE_MOD = cs % SIZE_MOD
        ∧ (cs < SIZE_MOD → cs1 < SIZE_MOD)
        ∧ (q1.getLast? = some none
            ∨ ∃ f rest, q1 = some f :: rest ∧ to_double start ≤ converted time_base f) := by
  induction q with
  | nil => intro cs q1 cs1 h; simp [evict_loop] at h
  | cons x rest ih =>
    intro cs q1 cs1 h
    unfold evict_loop at h
    split at h
    · rename_i hlast
      simp only [EvictResult.ready.injEq] at h
      obtain ⟨rfl, rfl⟩ := h
      exact ⟨[], by simp, by simp, by simp [footprint], id, Or.inl hlast⟩
    · cases x with
      | none => simp at h
      | some f =>
        simp only at h
        split at h
        · rename_i hlt
          obtain ⟨ev, hq, hev, hsz, hlt1, hhead⟩ := ih _ q1 cs1 h
          refine ⟨f :: ev, by simp [hq], ?_, ?_,
            fun _ => hlt1 (Nat.mod_lt _ (by simp [SIZE_MOD])), hhead⟩
          · intro g hg
            rcases List.mem_cons.mp hg with rfl | hg
            · exact hlt
            · exact hev g hg
          · have hf := get_video_frame_size_lt f
            simp only [footprint, List.map_cons, List.sum_cons] at hsz ⊢
            have h1 : (cs1 + (get_video_frame_size f + (ev.map get_video_frame_size).sum))
                = (cs1 + (ev.map get_video_frame_size).sum) + get_video_frame_size f := by
              omega
            rw [h1, Nat.add_mod, hsz, Nat.mod_mod, ← Nat.add_mod]
            have h2 : cs + SIZE_MOD - get_video_frame_size f + get_video_frame_size f
                = cs + SIZE_MOD := by omega
            rw [h2, Nat.add_mod_right]
        · rename_i hge
          simp only [EvictResult.ready.injEq] at h
          obtain ⟨rfl, rfl⟩ := h
          exact ⟨[], by simp, by simp, by simp [footprint], id,
            Or.inr ⟨f, rest, rfl, not_lt.mp hge⟩⟩

theorem evict_loop_empty (time_base start : ℚ) (q : List (Option AVFrame)) :
    ∀ (cs cs1 : Nat), evict_loop time_base start q cs = .empty cs1 →
      ∃ ev : List AVFrame, q = ev.map some
        ∧ (∀ f ∈ ev, converted time_base f < to_double start)
        ∧ (cs1 + footprint ev) % SIZE_MOD = cs % SIZE_MOD
        ∧ (cs < SIZE_MOD → cs1 < SIZE_MOD) := by
  induction q with
  | nil =>
    intro cs cs1 h
    simp only [evict_loop, EvictResult.empty.injEq] at h
    subst h
    exact ⟨[], by simp, by simp, by simp [footprint], id⟩
  | cons x rest ih =>
    intro cs cs1 h
    unfold evict_loop at h
    split at h
    · simp at h
    · cases x with
      | none => simp at h
      | some f =>
        simp only at h
        split at h
        · rename_i hlt
          obtain ⟨ev, hq, hev, hsz, hlt1⟩ := ih _ cs1 h
          refine ⟨f :: ev, by simp [hq], ?_, ?_,
            fun _ => hlt1 (Nat.mod_lt _ (by simp [SIZE_MOD]))⟩
          · intro g hg
            rcases List.mem_cons.mp hg with rfl | hg
            · exact hlt
            · exact hev g hg
          · have hf := get_video_frame_size_lt f
            simp only [footprint, List.map_cons, List.sum_cons] at hsz ⊢
            have h1 : (cs1 + (get_video_frame_size f + (ev.map get_video_frame_size).sum))
                = (cs1 + (ev.map get_video_frame_size).sum) + get_video_frame_size f := by
              omega
            rw [h1, Nat.add_mod, hsz, Nat.mod_mod, ← Nat.add_mod]
            have h2 : cs + SIZE_MOD - get_video_frame_size f + get_video_frame_size f
                = cs + SIZE_MOD := by omega
            rw [h2, Nat.add_mod_right]
        · simp at h

/-- What a run of `get_sequence` from its entry does to the buffer: it evicts frames
before `start` from the head, and then either waits on the empty deque, or goes on to
line 136 with a deque whose tail is the end marker or whose head is not before
`start`; or it reads through a null pointer. -/
theorem get_sequence_cases (b : Buffer) (start end_ : ℚ) (sequence : List AVFrame) :
    b.get_sequence start end_ sequence = .null_deref
    ∨ ∃ ev b1, Evicted b start ev b1
        ∧ ((b1.q = [] ∧ b.get_sequence start end_ sequence = .wait_nonempty b1)
          ∨ ((b1.q.getLast? = some none
                ∨ ∃ f rest, b1.q = some f :: rest ∧ to_double start ≤ b1.ts f)
              ∧ b.get_sequence start end_ sequence = b1.await_tail start end_ sequence)) := by
  unfold Buffer.get_sequence
  cases h : evict_loop b.time_base start b.q b.current_size with
  | null_deref => exact Or.inl rfl
  | empty cs1 =>
    obtain ⟨ev, hq, hev, hsz, hlt⟩ := evict_loop_empty _ _ _ _ _ h
    exact Or.inr ⟨ev, { b with q := [], current_size := cs1 },
      ⟨by simp [hq], hev, hsz, hlt, rfl, rfl⟩, Or.inl ⟨rfl, rfl⟩⟩
  | ready q1 cs1 =>
    obtain ⟨ev, hq, hev, hsz, hlt, hhead⟩ := evict_loop_ready _ _ _ _ _ _ h
    exact Or.inr ⟨ev, { b with q := q1, current_size := cs1 },
      ⟨by simp [hq], hev, hsz, hlt, rfl, rfl⟩, Or.inr ⟨hhead, rfl⟩⟩

theorem await_tail_cases (b : Buffer) (start end_ : ℚ) (sequence : List AVFrame) :
    (b.tail_waits end_ = true ∧ b.await_tail start end_ sequence = .wait_tail b)
    ∨ (b.tail_waits end_ = false
        ∧ b.await_tail start end_ sequence
          = .returned b (scan b.time_base start end_ b.q sequence)) := by
  unfold Buffer.await_tail
  cases h : b.tail_waits end_ <;> simp

theorem evict_loop_frames_ne_null (time_base start : ℚ) (qf : List AVFrame) :
    ∀ cs, evict_loop time_base start (qf.map some) cs ≠ .null_deref := by
  induction qf with
  | nil => intro cs; simp [evict_loop]
  | cons f rest ih =>
    intro cs
    simp only [List.map_cons]
    unfold evict_loop
    split
    · simp
    · simp only
      split
      · exact ih _
      · simp

theorem map_some_injective : Function.Injective (List.map (some : AVFrame → Option AVFrame)) :=
  List.map_injective_iff.mpr (Option.some_injective _)

/-- The run of `get_sequence` from its entry on a deque that holds frames only. -/
theorem get_sequence_frames (b : Buffer) (qf : List AVFrame) (hq : b.q = qf.map some)
    (start end_ : ℚ) :
    ∃ ev qf1 b1, qf = ev ++ qf1 ∧ b1.q = qf1.map some ∧ (∀ f ∈ ev, b.ts f < to_double start)
      ∧ (b1.current_size + footprint ev) % SIZE_MOD = b.current_size % SIZE_MOD
      ∧ (b.current_size < SIZE_MOD → b1.current_size < SIZE_MOD)
      ∧ b1.time_base = b.time_base ∧ b1.cont_flag = b.cont_flag
      ∧ ((qf1 = [] ∧ b.get_sequence start end_ [] = .wait_nonempty b1)
        ∨ ((∃ f rest, qf1 = f :: rest ∧ to_double start ≤ b.ts f)
            ∧ b.get_sequence start end_ [] = b1.await_tail start end_ [])) := by
  rcases get_sequence_cases b start end_ [] with hnull | ⟨ev, b1, hev, hcase⟩
  · exfalso
    unfold Buffer.get_sequence at hnull
    cases h : evict_loop b.time_base start b.q b.current_size with
    | null_deref =>
      rw [hq] at h
      exact evict_loop_frames_ne_null _ _ _ _ h
    | empty cs1 => simp [h] at hnull
    | ready q1 cs1 =>
      simp only [h] at hnull
      rcases await_tail_cases { b with q := q1, current_size := cs1 } start end_ []
        with ⟨_, h2⟩ | ⟨_, h2⟩ <;> rw [h2] at hnull <;> simp at hnull
  · have hqeq := hev.q_eq
    rw [hq] at hqeq
    obtain ⟨l1, l2, hl, h1, h2⟩ := List.map_eq_append_iff.mp hqeq
    have hl1 : l1 = ev := map_some_injective h1
    subst hl1
    refine ⟨l1, l2, b1, hl, h2.symm, hev.before, hev.size_eq, hev.size_lt,
      hev.time_base_eq, hev.cont_flag_eq, ?_⟩
    rcases hcase with ⟨hempty, hres⟩ | ⟨hhead, hres⟩
    · left
      rw [hempty] at h2
      exact ⟨by simpa using h2, hres⟩
    · right
      refine ⟨?_, hres⟩
      rcases hhead with hlast | ⟨f, rest, hb1, hge⟩
      · rw [← h2, List.getLast?_map] at hlast
        cases hl2 : l2.getLast? <;> simp [hl2] at hlast
      · rw [← h2] at hb1
        cases l2 with
        | nil => simp at hb1
        | cons g l2 =>
          simp only [List.map_cons, List.cons.injEq, Option.some.injEq] at hb1
          obtain ⟨rfl, _⟩ := hb1
          refine ⟨g, l2, rfl, ?_⟩
          simpa [Buffer.ts, hev.time_base_eq] using hge

theorem push_frame_cases (b b1 : Buffer) (f : AVFrame) (h : b.push (some f) = some b1) :
    b1 = { b with
        q := b.q ++ [some f]
        current_size := (b.current_size + get_video_frame_size f) % SIZE_MOD }
      ∨ b1 = b := by
  simp only [Buffer.push] at h
  split at h
  · simp at h
  · split at h <;> simp only [Option.some.injEq] at h <;> subst h
    · exact Or.inl rfl
    · exact Or.inr rfl

/-! ## Lemmas on interleavings -/

theorem run_schedule_reach (l : List Thread) (s t : Sys) (h : run_schedule s l = some t) :
    Reach s t := by
  induction l generalizing s with
  | nil =>
    simp only [run_schedule, Option.some.injEq] at h
    subst h
    exact Relation.ReflTransGen.refl
  | cons x rest ih =>
    cases x with
    | decoder =>
      simp only [run_schedule] at h
      cases hd : decoder_step s with
      | none => simp [hd] at h
      | some u =>
        simp only [hd, Option.some_bind] at h
        exact Relation.ReflTransGen.head (Step.decoder hd) (ih u h)
    | worker =>
      simp only [run_schedule] at h
      cases hd : worker_step s with
      | none => simp [hd] at h
      | some u =>
        simp only [hd, Option.some_bind] at h
        exact Relation.ReflTransGen.head (Step.worker hd) (ih u h)
    | finish =>
      simp only [run_schedule] at h
      exact Relation.ReflTransGen.head (Step.finish s) (ih _ h)

theorem push_cont_flag (b b1 : Buffer) (x : Option AVFrame) (h : b.push x = some b1) :
    b1.cont_flag = b.cont_flag := by
  cases x with
  | none =>
    simp only [Buffer.push, Option.some.injEq] at h
    subst h; rfl
  | some f =>
    simp only [Buffer.push] at h
    split at h
    · simp at h
    · split at h <;> simp only [Option.some.injEq] at h <;> subst h <;> rfl

theorem decoder_step_cont_flag (s t : Sys) (h : decoder_step s = some t) :
    t.buffer.cont_flag = s.buffer.cont_flag := by
  unfold decoder_step at h
  split at h
  · simp at h
  · rename_i x rest _
    cases hp : s.buffer.push x with
    | none => simp [hp] at h
    | some b1 =>
      simp only [hp, Option.map_some', Option.some.injEq] at h
      subst h
      exact push_cont_flag _ _ _ hp

theorem await_tail_cont_flag (b : Buffer) (start end_ : ℚ) (s : Sys) :
    (s.resume start end_ (b.await_tail start end_ [])).buffer.cont_flag = b.cont_flag
      ∨ (s.resume start end_ (b.await_tail start end_ [])).buffer = s.buffer := by
  unfold Buffer.await_tail
  split <;> simp [Sys.resume]

theorem resume_get_sequence_cont_flag (b : Buffer) (start end_ : ℚ) (s : Sys)
    (hs : s.buffer.cont_flag = b.cont_flag) :
    (s.resume start end_ (b.get_sequence start end_ [])).buffer.cont_flag = b.cont_flag := by
  unfold Buffer.get_sequence
  split
  · simp [Sys.resume]
  · simp [Sys.resume, hs]
  · rename_i q cs _
    rcases await_tail_cont_flag { b with q := q, current_size := cs } start end_ s with h | h
    · exact h
    · rw [h, hs]

theorem worker_step_cont_flag (s t : Sys) (h : worker_step s = some t) :
    t.buffer.cont_flag = s.buffer.cont_flag := by
  unfold worker_step at h
  split at h
  · split at h
    · simp at h
    · simp only [Option.some.injEq] at h
      subst h
      exact resume_get_sequence_cont_flag _ _ _ _ rfl
  · simp only [Option.some.injEq] at h
    subst h
    exact resume_get_sequence_cont_flag _ _ _ _ rfl
  · simp only [Option.some.injEq] at h
    subst h
    rcases await_tail_cont_flag s.buffer _ _ s with h | h
    · assumption
    · rw [h]
  · simp at h

theorem marker_last_init (frames : List AVFrame) :
    marker_last (frames.map some ++ [none]) := by
  induction frames with
  | nil =>
    intro pre post h
    cases pre with
    | nil => simpa using h.symm
    | cons p pre => simp at h
  | cons f fs ih =>
    intro pre post h
    cases pre with
    | nil => simp at h
    | cons p pre =>
      simp only [List.map_cons, List.cons_append, List.cons.injEq] at h
      exact ih pre post h.2

theorem marker_last_append_left {a b : List (Option AVFrame)} (h : marker_last (a ++ b)) :
    marker_last a := by
  intro pre post ha
  have := h pre (post ++ b) (by rw [ha]; simp)
  simpa using (List.append_eq_nil.mp this).1

theorem marker_last_append_right {a b : List (Option AVFrame)} (h : marker_last (a ++ b)) :
    marker_last b := by
  intro pre post hb
  exact h (a ++ pre) post (by rw [hb]; simp)

theorem marker_last_remove {a b : List (Option AVFrame)} {x : Option AVFrame}
    (h : marker_last (a ++ x :: b)) : marker_last (a ++ b) := by
  intro pre post hab
  rcases List.append_eq_append_iff.mp hab with ⟨a1, hpre, hb⟩ | ⟨c1, ha, hpost⟩
  · -- the marker lies in `b`
    exact h (a ++ x :: a1) post (by rw [hb]; simp)
  · -- the marker lies in `a`
    cases c1 with
    | nil =>
      simp only [List.nil_append] at hpost
      simp only [List.append_nil] at ha
      cases b with
      | nil => simpa using hpost.symm
      | cons y b =>
        simp only [List.cons.injEq] at hpost
        obtain ⟨rfl, rfl⟩ := hpost
        exact h (a ++ [x]) post (by simp)
    | cons y c1 =>
      simp only [List.cons_append, List.cons.injEq] at hpost
      obtain ⟨rfl, hpost⟩ := hpost
      have := h pre (c1 ++ x :: b) (by rw [ha]; simp)
      simp at this

theorem marker_last_count {l : List (Option AVFrame)} (h : marker_last l) :
    l.count none ≤ 1 ∧ (none ∈ l → l.getLast? = some none) := by
  by_cases hmem : none ∈ l
  · obtain ⟨pre, post, hl⟩ := List.append_of_mem hmem
    have hpost := h pre post hl
    subst hpost
    have hpre : none ∉ pre := by
      intro hp
      obtain ⟨p1, p2, hp⟩ := List.append_of_mem hp
      have := h p1 (p2 ++ [none]) (by rw [hl, hp]; simp)
      simp at this
    refine ⟨?_, fun _ => by rw [hl]; simp⟩
    rw [hl, List.count_append, List.count_eq_zero_of_not_mem hpre]
    simp
  · exact ⟨by rw [List.count_eq_zero_of_not_mem hmem]; omega, fun h => absurd h hmem⟩

theorem push_q (b b1 : Buffer) (x : Option AVFrame) (h : b.push x = some b1) :
    b1.q = b.q ++ [x] ∨ b1.q = b.q := by
  cases x with
  | none =>
    simp only [Buffer.push, Option.some.injEq] at h
    subst h
    exact Or.inl rfl
  | some f =>
    simp only [Buffer.push] at h
    split at h
    · simp at h
    · split at h <;> simp only [Option.some.injEq] at h <;> subst h
      · exact Or.inl rfl
      · exact Or.inr rfl

theorem resume_pending (s : Sys) (start end_ : ℚ) (r : GetResult) :
    (s.resume start end_ r).pending = s.pending := by
  cases r <;> rfl

theorem resume_await_tail_q (s : Sys) (start end_ : ℚ) (b : Buffer) :
    (s.resume start end_ (b.await_tail start end_ [])).buffer = b := by
  rcases await_tail_cases b start end_ [] with ⟨_, h⟩ | ⟨_, h⟩ <;> rw [h] <;> rfl

theorem resume_get_sequence_q (s : Sys) (start end_ : ℚ) :
    ∃ pre, s.buffer.q
      = pre ++ (s.resume start end_ (s.buffer.get_sequence start end_ [])).buffer.q := by
  rcases get_sequence_cases s.buffer start end_ [] with h | ⟨ev, b1, hev, h | ⟨_, h⟩⟩
  · rw [h]; exact ⟨[], rfl⟩
  · rw [h.2]; exact ⟨ev.map some, hev.q_eq⟩
  · rw [h, resume_await_tail_q]; exact ⟨ev.map some, hev.q_eq⟩

theorem worker_step_q (s t : Sys) (h : worker_step s = some t) :
    t.pending = s.pending ∧ ∃ pre, s.buffer.q = pre ++ t.buffer.q := by
  unfold worker_step at h
  split at h
  · split at h
    · simp at h
    · rename_i start end_ rest hw
      simp only [Option.some.injEq] at h
      subst h
      exact ⟨by rw [resume_pending], resume_get_sequence_q { s with windows := rest } start end_⟩
  · simp only [Option.some.injEq] at h
    subst h
    exact ⟨by rw [resume_pending], resume_get_sequence_q s _ _⟩
  · simp only [Option.some.injEq] at h
    subst h
    exact ⟨by rw [resume_pending], ⟨[], by rw [resume_await_tail_q]; rfl⟩⟩
  · simp at h

theorem step_marker_last (s t : Sys) (hstep : Step s t)
    (h : marker_last (s.buffer.q ++ s.pending)) : marker_last (t.buffer.q ++ t.pending) := by
  cases hstep with
  | decoder hd =>
    unfold decoder_step at hd
    split at hd
    · simp at hd
    · rename_i x rest hp
      cases hpush : s.buffer.push x with
      | none => simp [hpush] at hd
      | some b1 =>
        simp only [hpush, Option.map_some', Option.some.injEq] at hd
        subst hd
        rw [hp] at h
        rcases push_q _ _ _ hpush with hq | hq
        · simpa [hq] using h
        · simpa [hq] using marker_last_remove h
  | worker hw =>
    obtain ⟨hp, pre, hq⟩ := worker_step_q s t hw
    rw [hq, List.append_assoc] at h
    rw [hp]
    exact marker_last_append_right h
  | finish => exact h

/-- A set of states that is closed under the steps of the two threads holds every state
reached without a call of `signal_finish`. -/
theorem reach_mem_of_closed (S : List Sys) (s0 : Sys) (h0 : s0 ∈ S)
    (hclosed : ∀ s ∈ S, ∀ t ∈ thread_steps s, t ∈ S) (t : Sys) (hreach : Reach s0 t)
    (hcont : t.buffer.cont_flag = true) : t ∈ S := by
  induction hreach with
  | refl => exact h0
  | tail _ hstep ih =>
    cases hstep with
    | decoder h =>
      rw [decoder_step_cont_flag _ _ h] at hcont
      exact hclosed _ (ih hcont) _ (by simp [thread_steps, h])
    | worker h =>
      rw [worker_step_cont_flag _ _ h] at hcont
      exact hclosed _ (ih hcont) _ (by simp [thread_steps, h])
    | finish => simp [finish_step, Buffer.signal_finish] at hcont

theorem call_inv_get_sequence (b : Buffer) (fs more : List AVFrame) (start end_ : ℚ)
    (s : Sys) (ev adm qf rest : List AVFrame)
    (hdata : call_data b fs more start s ev adm qf rest)
    (hw : s.windows = []) (hr : s.results = []) :
    call_inv b fs more start end_
      (s.resume start end_ (s.buffer.get_sequence start end_ [])) := by
  obtain ⟨hq, hp, hsplit, hsub, hsorted, hev, hsz, hlt, htb⟩ := hdata
  obtain ⟨ev1, qf1, b1, hqf, hb1q, hev1, hsz1, hlt1, htb1, _, hcase⟩ :=
    get_sequence_frames s.buffer qf hq start end_
  have hts : ∀ f, s.buffer.ts f = b.ts f := by
    intro f; simp [Buffer.ts, htb]
  have hsz2 : (b1.current_size + footprint (ev ++ ev1)) % SIZE_MOD
      = (b.current_size + footprint adm) % SIZE_MOD := by
    rw [← hsz]
    have : b1.current_size + footprint (ev ++ ev1)
        = (b1.current_size + footprint ev1) + footprint ev := by
      simp [footprint]; omega
    rw [this, Nat.add_mod, hsz1, ← Nat.add_mod]
  have hev2 : ∀ f ∈ ev ++ ev1, b.ts f < to_double start := by
    intro f hf
    rcases List.mem_append.mp hf with hf | hf
    · exact hev f hf
    · rw [← hts]; exact hev1 f hf
  have hsorted1 : (qf1 ++ rest).Pairwise (fun f g => b.ts f ≤ b.ts g) := by
    rw [hqf, List.append_assoc] at hsorted
    exact (List.pairwise_append.mp hsorted).2.1
  have hsplit1 : fs ++ adm = (ev ++ ev1) ++ qf1 := by
    rw [hsplit, hqf, List.append_assoc]
  rcases hcase with ⟨hnil, hres⟩ | ⟨⟨f, tl, hcons, hge⟩, hres⟩
  · rw [hres]
    exact ⟨ev ++ ev1, adm, qf1, rest,
      ⟨hb1q, hp, hsplit1, hsub, hsorted1, hev2, hsz2, fun h => hlt1 (hlt h),
          htb1.trans htb⟩,
      Or.inr (Or.inl ⟨rfl, hw, hr⟩)⟩
  · have hne : qf1 ≠ [] := by rw [hcons]; simp
    have hall : ∀ g ∈ qf1, to_double start ≤ b.ts g := by
      intro g hg
      rw [hcons] at hg hsorted1
      rcases List.mem_cons.mp hg with rfl | hg
      · rw [← hts]; exact hge
      · have h1 := (List.pairwise_cons.mp hsorted1).1 g (List.mem_append_left _ hg)
        rw [hts] at hge
        exact le_trans hge h1
    rw [hres]
    rcases await_tail_cases b1 start end_ [] with ⟨_, h2⟩ | ⟨_, h2⟩
    · rw [h2]
      exact ⟨ev ++ ev1, adm, qf1, rest,
        ⟨hb1q, hp, hsplit1, hsub, hsorted1, hev2, hsz2, fun h => hlt1 (hlt h),
          htb1.trans htb⟩,
        Or.inr (Or.inr ⟨hw, Or.inl ⟨rfl, hr⟩, hne, hall⟩)⟩
    · rw [h2]
      exact ⟨ev ++ ev1, adm, qf1, rest,
        ⟨hb1q, hp, hsplit1, hsub, hsorted1, hev2, hsz2, fun h => hlt1 (hlt h),
          htb1.trans htb⟩,
        Or.inr (Or.inr ⟨hw, Or.inr ⟨rfl, by simp [Sys.resume]⟩, hne, hall⟩)⟩

theorem call_inv_step (b : Buffer) (fs more : List AVFrame) (start end_ : ℚ)
    (s t : Sys) (hstep : Step s t) (hinv : call_inv b fs more start end_ s) :
    call_inv b fs more start end_ t := by
  obtain ⟨ev, adm, qf, rest, hdata, hphase⟩ := hinv
  cases hstep with
  | finish =>
    exact ⟨ev, adm, qf, rest, hdata, hphase⟩
  | decoder hd =>
    obtain ⟨hq, hp, hsplit, hsub, hsorted, hev, hsz, hlt, htb⟩ := hdata
    unfold decoder_step at hd
    split at hd
    · simp at hd
    · rename_i x rest1 hpend
      cases hpush : s.buffer.push x with
      | none => simp [hpush] at hd
      | some b1 =>
        simp only [hpush, Option.map_some', Option.some.injEq] at hd
        subst hd
        rw [hp] at hpend
        cases rest with
        | nil => simp at hpend
        | cons g rest2 =>
          simp only [List.map_cons, List.cons.injEq] at hpend
          obtain ⟨rfl, rfl⟩ := hpend
          rcases push_frame_cases _ _ _ hpush with hb1 | hb1
          · -- the frame is admitted
            subst hb1
            have hsorted1 : ((qf ++ [g]) ++ rest2).Pairwise (fun f g => b.ts f ≤ b.ts g) := by
              simpa using hsorted
            refine ⟨ev, adm ++ [g], qf ++ [g], rest2,
              ⟨by simp [hq], rfl, by rw [← List.append_assoc, hsplit, List.append_assoc],
                by simpa using hsub, hsorted1, hev, ?_,
                fun _ => Nat.mod_lt _ (by simp [SIZE_MOD]), htb⟩, ?_⟩
            · simp only
              have h1 : footprint (adm ++ [g]) = footprint adm + get_video_frame_size g := by
                simp [footprint]
              rw [h1, Nat.add_mod, Nat.mod_mod, ← Nat.add_mod]
              have h2 : s.buffer.current_size + get_video_frame_size g + footprint ev
                  = (s.buffer.current_size + footprint ev) + get_video_frame_size g := by
                omega
              rw [h2, Nat.add_mod, hsz, ← Nat.add_mod]
              congr 1
              omega
            · rcases hphase with h | h | ⟨hw, hc, hne, hall⟩
              · exact Or.inl h
              · exact Or.inr (Or.inl h)
              · refine Or.inr (Or.inr ⟨hw, hc, by simp, ?_⟩)
                intro f hf
                rcases List.mem_append.mp hf with hf | hf
                · exact hall f hf
                · simp only [List.mem_singleton] at hf
                  subst hf
                  cases qf with
                  | nil => exact absurd rfl hne
                  | cons h0 qf =>
                    have h1 := (List.pairwise_cons.mp hsorted).1 f (by simp)
                    exact le_trans (hall h0 (by simp)) h1
          · -- the frame is discarded
            subst hb1
            have hsub1 : (adm ++ rest2).Sublist (adm ++ g :: rest2) :=
              List.Sublist.append (List.Sublist.refl _) (List.sublist_cons_self _ _)
            have hsorted1 : (qf ++ rest2).Pairwise (fun f g => b.ts f ≤ b.ts g) :=
              List.Pairwise.sublist
                (List.Sublist.append (List.Sublist.refl _) (List.sublist_cons_self _ _)) hsorted
            exact ⟨ev, adm, qf, rest2,
              ⟨hq, rfl, hsplit, hsub1.trans hsub, hsorted1, hev, hsz, hlt, htb⟩, hphase⟩
  | worker hw =>
    unfold worker_step at hw
    split at hw
    · rename_i hidle
      split at hw
      · simp at hw
      · rename_i st en rest1 hwin
        simp only [Option.some.injEq] at hw
        subst hw
        rcases hphase with ⟨_, hwin1, hr⟩ | ⟨hc, _, _⟩ | ⟨hwin1, _, _, _⟩
        · rw [hwin1] at hwin
          simp only [List.cons.injEq, Prod.mk.injEq] at hwin
          obtain ⟨⟨rfl, rfl⟩, rfl⟩ := hwin
          exact call_inv_get_sequence b fs more _ _ { s with windows := [] } ev adm qf rest
            hdata rfl hr
        · rw [hidle] at hc; simp at hc
        · rw [hwin1] at hwin; simp at hwin
    · rename_i st en hc
      simp only [Option.some.injEq] at hw
      subst hw
      rcases hphase with ⟨hc1, _, _⟩ | ⟨hc1, hwin, hr⟩ | ⟨_, hc1 | hc1, _, _⟩
      · rw [hc] at hc1; simp at hc1
      · rw [hc] at hc1
        simp only [Consumer.at_nonempty.injEq] at hc1
        obtain ⟨rfl, rfl⟩ := hc1
        exact call_inv_get_sequence b fs more _ _ s ev adm qf rest hdata hwin hr
      · rw [hc] at hc1; simp at hc1
      · rw [hc] at hc1; simp at hc1
    · rename_i st en hc
      simp only [Option.some.injEq] at hw
      subst hw
      rcases hphase with ⟨hc1, _, _⟩ | ⟨hc1, _, _⟩ | ⟨hwin, hc1 | hc1, hne, hall⟩
      · rw [hc] at hc1; simp at hc1
      · rw [hc] at hc1; simp at hc1
      · rw [hc] at hc1
        obtain ⟨hc1, hr⟩ := hc1
        simp only [Consumer.at_tail.injEq] at hc1
        obtain ⟨rfl, rfl⟩ := hc1
        rcases await_tail_cases s.buffer st en [] with ⟨_, h2⟩ | ⟨_, h2⟩
        · rw [h2]
          exact ⟨ev, adm, qf, rest, hdata, Or.inr (Or.inr ⟨hwin, Or.inl ⟨rfl, hr⟩, hne, hall⟩)⟩
        · rw [h2]
          exact ⟨ev, adm, qf, rest, hdata,
            Or.inr (Or.inr ⟨hwin, Or.inr ⟨rfl, by simp [Sys.resume]⟩, hne, hall⟩)⟩
      · rw [hc] at hc1; simp at hc1
    · simp at hw

/-! ## Lemmas on the worker -/

theorem nonspace_runs_nil : nonspace_runs [] = [] := by
  simp [nonspace_runs]

theorem nonspace_runs_space (cs : List Char) : nonspace_runs (' ' :: cs) = nonspace_runs cs := by
  simp [nonspace_runs, List.splitOn]

theorem splitOn_space_head (cs : List Char) :
    ∃ rest, cs.splitOn ' ' = cs.takeWhile (fun c => c ≠ ' ') :: rest
      ∧ rest.filter (fun run => !run.isEmpty)
        = nonspace_runs (cs.dropWhile (fun c => c ≠ ' ')) := by
  induction cs with
  | nil => exact ⟨[], by simp, by simp [nonspace_runs_nil]⟩
  | cons d cs ih =>
    obtain ⟨rest, hsplit, hrest⟩ := ih
    by_cases hd : d = ' '
    · subst hd
      refine ⟨cs.splitOn ' ', by simp [List.splitOn], ?_⟩
      simp only [ne_eq, not_true_eq_false, decide_False, List.dropWhile_cons, Bool.false_eq_true,
        if_false]
      rw [nonspace_runs_space]
      rfl
    · refine ⟨rest, ?_, ?_⟩
      · have h : (d :: cs).splitOn ' ' = (cs.splitOn ' ').modifyHead (List.cons d) := by
          simp [List.splitOn, hd]
        rw [h, hsplit]
        simp [hd]
      · simpa [hd] using hrest

theorem nonspace_runs_cons (c : Char) (cs : List Char) (hc : c ≠ ' ') :
    nonspace_runs (c :: cs)
      = (c :: cs.takeWhile (fun c => c ≠ ' '))
        :: nonspace_runs (cs.dropWhile (fun c => c ≠ ' ')) := by
  obtain ⟨rest, hsplit, hrest⟩ := splitOn_space_head cs
  have h : (c :: cs).splitOn ' ' = (cs.splitOn ' ').modifyHead (List.cons c) := by
    simp [List.splitOn, hc]
  unfold nonspace_runs at hrest ⊢
  rw [h, hsplit]
  simp [hrest]

theorem nonspace_runs_spaces (line : List Char) :
    nonspace_runs line = nonspace_runs (line.dropWhile (fun c => c = ' ')) := by
  induction line with
  | nil => rfl
  | cons c cs ih =>
    by_cases hc : c = ' '
    · subst hc
      rw [nonspace_runs_space, ih]
      simp
    · simp [hc]

theorem c_str_succ (x : Char) (buffer : List Char) (k : Nat) :
    c_str (x :: buffer) (k + 1) = c_str buffer k := rfl

theorem c_str_append (pre buffer : List Char) (k : Nat) :
    c_str (pre ++ buffer) (pre.length + k) = c_str buffer k := by
  unfold c_str
  rw [List.drop_append]

theorem split_loop_index (cs : List Char) :
    ∀ (i : Nat) (started : Bool), ∀ j ∈ (split_loop cs i started).2, i ≤ j := by
  induction cs with
  | nil => intro i started j hj; simp [split_loop] at hj
  | cons c cs ih =>
    intro i started j hj
    unfold split_loop at hj
    split at hj
    · have := ih (i + 1) false j hj
      omega
    · simp only at hj
      split at hj
      · have := ih (i + 1) true j hj
        omega
      · rcases List.mem_cons.mp hj with rfl | hj
        · exact le_refl _
        · have := ih (i + 1) true j hj
          omega

theorem split_loop_current (cs : List Char) (hnul : Char.ofNat 0 ∉ cs) :
    ∀ i, c_str (split_loop cs i true).1 0 = cs.takeWhile (fun c => c ≠ ' ') := by
  induction cs with
  | nil => intro i; rfl
  | cons c cs ih =>
    intro i
    have hc : c ≠ Char.ofNat 0 := fun h => hnul (by simp [h])
    have hcs : Char.ofNat 0 ∉ cs := fun h => hnul (List.mem_cons_of_mem _ h)
    unfold split_loop
    by_cases hsp : c = ' '
    · simp [hsp, c_str]
    · simp only [hsp, if_false]
      have := ih hcs (i + 1)
      simpa [c_str, hsp, hc] using this

theorem split_loop_fields (cs : List Char) (hnul : Char.ofNat 0 ∉ cs) :
    ∀ (i : Nat) (started : Bool),
      (split_loop cs i started).2.map (fun j => c_str (split_loop cs i started).1 (j - i))
        = nonspace_runs (if started then cs.dropWhile (fun c => c ≠ ' ') else cs) := by
  induction cs with
  | nil => intro i started; cases started <;> simp [split_loop, nonspace_runs_nil]
  | cons c cs ih =>
    intro i started
    have hc : c ≠ Char.ofNat 0 := fun h => hnul (by simp [h])
    have hcs : Char.ofNat 0 ∉ cs := fun h => hnul (List.mem_cons_of_mem _ h)
    have hshift : ∀ (x : Char) (buffer : List Char) (l : List Nat), (∀ j ∈ l, i + 1 ≤ j) →
        l.map (fun j => c_str (x :: buffer) (j - i))
          = l.map (fun j => c_str buffer (j - (i + 1))) := by
      intro x buffer l hl
      apply List.map_congr_left
      intro j hj
      have h1 := hl j hj
      have h2 : j - i = (j - (i + 1)) + 1 := by omega
      rw [h2, c_str_succ]
    unfold split_loop
    by_cases hsp : c = ' '
    · subst hsp
      simp only [if_true]
      rw [hshift _ _ _ (split_loop_index cs (i + 1) false), ih hcs (i + 1) false]
      cases started <;> simp [nonspace_runs_space]
    · simp only [hsp, if_false]
      cases started with
      | true =>
        simp only [if_true]
        rw [hshift _ _ _ (split_loop_index cs (i + 1) true), ih hcs (i + 1) true]
        simp [hsp]
      | false =>
        simp only [Bool.false_eq_true, if_false, List.map_cons, Nat.sub_self]
        rw [hshift _ _ _ (split_loop_index cs (i + 1) true), ih hcs (i + 1) true]
        rw [nonspace_runs_cons c cs hsp]
        simp only [if_true]
        congr 1
        have := split_loop_current cs hcs (i + 1)
        simpa [c_str, hsp, hc] using this


theorem take_length_takeWhile (p : Char → Bool) (l : List Char) :
    l.take (l.takeWhile p).length = l.takeWhile p
      ∧ l.drop (l.takeWhile p).length = l.dropWhile p := by
  induction l with
  | nil => simp
  | cons c cs ih =>
    by_cases h : p c
    · simp [List.takeWhile_cons, List.dropWhile_cons, h, ih.1, ih.2]
    · simp [List.takeWhile_cons, List.dropWhile_cons, h]

theorem dropWhile_space_head (line : List Char) (c : Char) (rest : List Char)
    (h : line.dropWhile (fun c => c = ' ') = c :: rest) : c ≠ ' ' := by
  have := List.head?_dropWhile_not (fun c => decide (c = ' ')) line
  rw [h] at this
  simpa using this

/-! ## The states of the end-to-end example -/

theorem example_states_before_closed :
    Sys.init (1 / 2) example_stream [(0, 2 / 5), (1 / 2, 2)] ∈ example_states_before
      ∧ ∀ s ∈ example_states_before, ∀ t ∈ thread_steps s, t ∈ example_states_before := by
  decide!

theorem example_states_after_closed :
    Sys.init (1 / 2) example_stream [(1 / 2, 2), (0, 2 / 5)] ∈ example_states_after
      ∧ ∀ s ∈ example_states_after, ∀ t ∈ thread_steps s, t ∈ example_states_after := by
  decide!

/-! ## The claims -/

/-- Claim C1.  Frames with non-decreasing converted time stamps are pushed into a fresh
buffer, then the end marker.  `get_sequence(s, e)` on an empty vector, with `s ≤ e`,
returns at once, leaves the buffer as it is, and its result is the list of pushed frames
filtered by `s ≤ pts*time_base ≤ e`: the frames of the window, in arrival order, each
once, both bounds included.  The product is the `double` product the code computes and
the bounds are the `double` numbers the call receives, `to_double s` and `to_double e`. -/
theorem get_sequence_returns_window (time_base : ℚ) (frames : List AVFrame) (s e : ℚ)
    (b : Buffer)
    (hsorted : frames.Pairwise (fun f g => converted time_base f ≤ converted time_base g))
    (hpushed : push_all (Buffer.set_time_base {} time_base) (frames.map some ++ [none]) = some b)
    (_hse : s ≤ e) :
    b.get_sequence s e [] = .returned b
      (frames.filter (fun f => decide (to_double s ≤ b.ts f ∧ b.ts f ≤ to_double e))) := by
  obtain ⟨hq, ht, _⟩ := push_all_eq _ _ b rfl hpushed
  simp only [Buffer.set_time_base, List.nil_append] at hq ht
  have hscan := scan_sorted time_base s e frames [none] hsorted (fun _ => rfl) []
  simp only [Buffer.get_sequence, hq, evict_loop_end_marker, Buffer.await_tail]
  rw [tail_waits_end_marker _ e (frames.map some) rfl]
  simp only [Bool.false_eq_true, if_false, ht, hscan, List.nil_append, Buffer.ts]
  congr 1
  cases b
  simp_all

/-- Claim C1 on the stream {0.0, 0.5, 1.0, 1.5, 2.0, 2.5, 3.0}: the window (0.5, 2.0) yields the
frames at 0.5, 1.0, 1.5 and 2.0. -/
theorem get_sequence_returns_window_witness :
    push_all (Buffer.set_time_base {} (1 / 2)) (example_stream.map some ++ [none])
        = some example_buffer
      ∧ example_buffer.get_sequence (1 / 2) 2 []
        = .returned example_buffer [frame_at 1, frame_at 2, frame_at 3, frame_at 4] := by
  refine ⟨rfl, ?_⟩
  rw [get_sequence_returns_window (1 / 2) example_stream (1 / 2) 2 example_buffer
    (by decide!) rfl (by norm_num)]
  decide!

/-- Claim C2.  The buffer `b` holds the frames `fs` (no end marker), the decoder goes on
pushing the frames `more`, and the converted time stamps of `fs ++ more`, the `double`
products the code computes, are non-decreasing; `to_double start` is the `double` the
call receives as its start.  In every interleaving, once `get_sequence(start, end_)`
has returned, every frame in the deque has a converted time stamp that is not before
the start; the frames `ev` evicted by the call are a prefix of what was buffered or
admitted, each of them is before the start, and `current_size` went up by the
footprints of the admitted frames `adm` and down by the footprints of `ev`, in `size_t`
arithmetic, and exactly so when the sum does not wrap. -/
theorem get_sequence_evicts_before_start (b : Buffer) (fs more : List AVFrame)
    (start end_ : ℚ) (hq : b.q = fs.map some)
    (hsorted : (fs ++ more).Pairwise (fun f g => b.ts f ≤ b.ts g))
    (t : Sys)
    (hreach : Reach
      { buffer := b, pending := more.map some, consumer := .idle
        windows := [(start, end_)], results := [] } t)
    (hret : t.results ≠ []) :
    (∀ f, some f ∈ t.buffer.q → to_double start ≤ t.buffer.ts f)
    ∧ ∃ ev adm, fs.map some ++ adm.map some = ev.map some ++ t.buffer.q
        ∧ adm.Sublist more
        ∧ (∀ f ∈ ev, b.ts f < to_double start)
        ∧ (t.buffer.current_size + footprint ev) % SIZE_MOD
            = (b.current_size + footprint adm) % SIZE_MOD
        ∧ (b.current_size + footprint adm < SIZE_MOD
            → footprint ev ≤ b.current_size + footprint adm
            → t.buffer.current_size + footprint ev = b.current_size + footprint adm) := by
  have hinv : call_inv b fs more start end_ t := by
    clear hret
    induction hreach with
    | refl =>
      exact ⟨[], [], fs, more, ⟨hq, rfl, by simp, by simp, hsorted, by simp, by simp [footprint],
        id, rfl⟩, Or.inl ⟨rfl, rfl, rfl⟩⟩
    | tail _ hstep ih => exact call_inv_step _ _ _ _ _ _ _ hstep ih
  obtain ⟨ev, adm, qf, rest, ⟨hq1, _, hsplit, hsub, _, hev, hsz, hlt, htb⟩, hphase⟩ := hinv
  have hall : ∀ f ∈ qf, to_double start ≤ b.ts f := by
    rcases hphase with ⟨_, _, hr⟩ | ⟨_, _, hr⟩ | ⟨_, _, _, hall⟩
    · exact absurd hr hret
    · exact absurd hr hret
    · exact hall
  refine ⟨?_, ev, adm, ?_, ?_, hev, hsz, ?_⟩
  · intro f hf
    rw [hq1] at hf
    simp only [List.mem_map, Option.some.injEq, exists_eq_right] at hf
    simpa [Buffer.ts, htb] using hall f hf
  · rw [hq1, ← List.map_append, ← List.map_append, hsplit]
  · exact (List.sublist_append_left adm rest).trans hsub
  · intro h1 h2
    have h3 : t.buffer.current_size < SIZE_MOD := hlt (by omega)
    rw [Nat.mod_eq_of_lt h1] at hsz
    have h4 := Nat.mod_add_div (t.buffer.current_size + footprint ev) SIZE_MOD
    rw [hsz] at h4
    have h5 : (t.buffer.current_size + footprint ev) / SIZE_MOD = 0 := by
      by_contra hne
      have h7 : SIZE_MOD ≤ SIZE_MOD * ((t.buffer.current_size + footprint ev) / SIZE_MOD) :=
        Nat.le_mul_of_pos_right _ (Nat.pos_of_ne_zero hne)
      omega
    rw [h5] at h4
    omega

/-- Claim C2 on a buffer holding the frames at 0.0 and 0.5: the call `get_sequence(0.5, 1.5)`
evicts the frame at 0.0, waits for the frames at 1.0 and 1.5, and returns. -/
theorem get_sequence_evicts_before_start_witness :
    Reach
        { buffer := example_call_start
          pending := [some (frame_at 2), some (frame_at 3), some (frame_at 4)]
          consumer := .idle, windows := [(1 / 2, 3 / 2)], results := [] }
        example_call_end
      ∧ (∀ f, some f ∈ example_call_end.buffer.q
          → to_double (1 / 2) ≤ example_call_end.buffer.ts f)
      ∧ ∃ ev adm, [some (frame_at 0), some (frame_at 1)] ++ adm.map some
            = ev.map some ++ example_call_end.buffer.q
          ∧ adm.Sublist [frame_at 2, frame_at 3, frame_at 4]
          ∧ (∀ f ∈ ev, example_call_start.ts f < to_double (1 / 2))
          ∧ (example_call_end.buffer.current_size + footprint ev) % SIZE_MOD
              = (example_call_start.current_size + footprint adm) % SIZE_MOD
          ∧ (example_call_start.current_size + footprint adm < SIZE_MOD
              → footprint ev ≤ example_call_start.current_size + footprint adm
              → example_call_end.buffer.current_size + footprint ev
                = example_call_start.current_size + footprint adm) := by
  have hreach : Reach
      { buffer := example_call_start
        pending := [some (frame_at 2), some (frame_at 3), some (frame_at 4)]
        consumer := .idle, windows := [(1 / 2, 3 / 2)], results := [] }
      example_call_end :=
    run_schedule_reach [.worker, .decoder, .decoder, .worker] _ _ (by decide!)
  exact ⟨hreach, get_sequence_evicts_before_start example_call_start
    [frame_at 0, frame_at 1] [frame_at 2, frame_at 3, frame_at 4] (1 / 2) (3 / 2) rfl
    (by decide!) example_call_end hreach (by decide)⟩

/-- Claim C3 fails on the code.  Frames at 1.0 and 2.0 are buffered and `get_sequence(1, 2)`
returns them, leaving them in the buffer; the decoder then pushes a second frame with
time stamp 2.0, and the second `get_sequence(1, 2)` returns three frames. -/
theorem get_sequence_not_idempotent :
    run_schedule (Sys.init (1 / 2) [frame_at 2, frame_at 4, small_frame_at 4] [(1, 2), (1, 2)])
      [.decoder, .decoder, .worker, .decoder, .worker]
      = some
        { buffer :=
            { time_base := 1 / 2
              q := [some (frame_at 2), some (frame_at 4), some (small_frame_at 4)]
              current_size := 2 * 460800 + 115200
              cont_flag := true }
          pending := [none]
          consumer := .idle
          windows := []
          results := [[frame_at 2, frame_at 4], [frame_at 2, frame_at 4, small_frame_at 4]] } := by
  decide!

/-- Claim C4, as stated, fails: when the decoder has pushed the whole stream and the end
marker before the worker asks for the window (0.5, 2.0), that call evicts nothing
(line 124), and the window (0, 0.4) requested after it still yields the frame at 0.0. -/
theorem task_order_counterexample :
    ¬ ∀ t, Reach (Sys.init (1 / 2) example_stream [(1 / 2, 2), (0, 2 / 5)]) t →
      t.buffer.cont_flag = true → ∀ r1 r2, t.results = [r1, r2] → r2 = [] := by
  intro h
  have hrun : run_schedule (Sys.init (1 / 2) example_stream [(1 / 2, 2), (0, 2 / 5)])
      decoder_first = some
        { buffer := example_buffer, pending := [], consumer := .idle, windows := []
          results := [[frame_at 1, frame_at 2, frame_at 3, frame_at 4], [frame_at 0]] } := by
    decide!
  have := h _ (run_schedule_reach _ _ _ hrun) rfl _ _ rfl
  simp at this

/-- Claim C4, amended.  The stream is {0.0, 0.5, 1.0, 1.5, 2.0, 2.5, 3.0} and the end marker,
`signal_finish` has not been called, the interleaving is arbitrary.  When the window
(0, 0.4) is requested before (0.5, 2.0) its result is the frame at 0.0 and the next
result is the frames at 0.5, 1.0, 1.5, 2.0.  When it is requested after (0.5, 2.0), its
result is empty if the frame at 0.0 has been evicted, and it is the frame at 0.0 if that
frame is still buffered, which is the case only when the buffer holds the whole stream
and the end marker.  In both orders a state short of the two results has a step of one
of the threads that changes it. -/
theorem task_order_example (t1 t2 : Sys)
    (hcont1 : t1.buffer.cont_flag = true)
    (hreach1 : Reach (Sys.init (1 / 2) example_stream [(0, 2 / 5), (1 / 2, 2)]) t1)
    (hcont2 : t2.buffer.cont_flag = true)
    (hreach2 : Reach (Sys.init (1 / 2) example_stream [(1 / 2, 2), (0, 2 / 5)]) t2) :
    ((∀ r, t1.results.head? = some r → r = [frame_at 0])
      ∧ (∀ r, t1.results.tail.head? = some r
          → r = [frame_at 1, frame_at 2, frame_at 3, frame_at 4])
      ∧ (t1.results.length < 2 → ∃ u, Step t1 u ∧ u ≠ t1 ∧ u.buffer.cont_flag = true))
    ∧ ((∀ r, t2.results.head? = some r → r = [frame_at 1, frame_at 2, frame_at 3, frame_at 4])
      ∧ (∀ r, t2.results.tail.head? = some r →
          (some (frame_at 0) ∉ t2.buffer.q ∧ r = [])
          ∨ (t2.buffer.q = example_stream.map some ++ [none] ∧ r = [frame_at 0]))
      ∧ (t2.results.length < 2 → ∃ u, Step t2 u ∧ u ≠ t2 ∧ u.buffer.cont_flag = true)) := by
  have hstep : ∀ s : Sys, s.buffer.cont_flag = true →
      (∃ u ∈ thread_steps s, u ≠ s) → ∃ u, Step s u ∧ u ≠ s ∧ u.buffer.cont_flag = true := by
    intro s hs ⟨u, hu, hne⟩
    simp only [thread_steps, List.mem_append, Option.mem_toList, Option.mem_def] at hu
    rcases hu with hu | hu
    · exact ⟨u, Step.decoder hu, hne, by rw [decoder_step_cont_flag _ _ hu, hs]⟩
    · exact ⟨u, Step.worker hu, hne, by rw [worker_step_cont_flag _ _ hu, hs]⟩
  constructor
  · have hmem := reach_mem_of_closed _ _ example_states_before_closed.1
      example_states_before_closed.2 t1 hreach1 hcont1
    have hall : ∀ s ∈ example_states_before,
        (∀ r, s.results.head? = some r → r = [frame_at 0])
        ∧ (∀ r, s.results.tail.head? = some r
            → r = [frame_at 1, frame_at 2, frame_at 3, frame_at 4])
        ∧ (s.results.length < 2 → ∃ u ∈ thread_steps s, u ≠ s) := by
      decide!
    obtain ⟨h1, h2, h3⟩ := hall t1 hmem
    exact ⟨h1, h2, fun h => hstep t1 hcont1 (h3 h)⟩
  · have hmem := reach_mem_of_closed _ _ example_states_after_closed.1
      example_states_after_closed.2 t2 hreach2 hcont2
    have hall : ∀ s ∈ example_states_after,
        (∀ r, s.results.head? = some r → r = [frame_at 1, frame_at 2, frame_at 3, frame_at 4])
        ∧ (∀ r, s.results.tail.head? = some r →
            (some (frame_at 0) ∉ s.buffer.q ∧ r = [])
            ∨ (s.buffer.q = example_stream.map some ++ [none] ∧ r = [frame_at 0]))
        ∧ (s.results.length < 2 → ∃ u ∈ thread_steps s, u ≠ s) := by
      decide!
    obtain ⟨h1, h2, h3⟩ := hall t2 hmem
    exact ⟨h1, h2, fun h => hstep t2 hcont2 (h3 h)⟩

/-- Claim C4 on two interleavings of the example: with the schedule `worker_early` the
window (0, 0.4) yields the frame at 0.0 when requested first and nothing when requested
last. -/
theorem task_order_example_witness :
    Reach (Sys.init (1 / 2) example_stream [(0, 2 / 5), (1 / 2, 2)]) example_final_before
      ∧ Reach (Sys.init (1 / 2) example_stream [(1 / 2, 2), (0, 2 / 5)]) example_final_after
      ∧ (∀ r, example_final_before.results.head? = some r → r = [frame_at 0])
      ∧ (∀ r, example_final_after.results.tail.head? = some r →
          (some (frame_at 0) ∉ example_final_after.buffer.q ∧ r = [])
          ∨ (example_final_after.buffer.q = example_stream.map some ++ [none]
              ∧ r = [frame_at 0])) := by
  have h1 : Reach (Sys.init (1 / 2) example_stream [(0, 2 / 5), (1 / 2, 2)])
      example_final_before :=
    run_schedule_reach worker_early _ _ (by decide!)
  have h2 : Reach (Sys.init (1 / 2) example_stream [(1 / 2, 2), (0, 2 / 5)])
      example_final_after :=
    run_schedule_reach worker_early _ _ (by decide!)
  have h := task_order_example example_final_before example_final_after rfl h1 rfl h2
  exact ⟨h1, h2, h.1.1, h.2.2.1⟩

/-- Claim C5 fails on the code.  Two frames and two bottom-up frames of the same size
(negative line sizes, footprint `2^64 - 460800` in `size_t`) are all admitted, because
the sums of line 106 wrap around.  Once `get_sequence(1, 1.5)` has evicted the first two
frames, the buffer holds two data frames and `current_size = 2^64 - 921600`, which is
above `max_size`. -/
theorem capacity_exceeded_by_wraparound :
    run_schedule
      (Sys.init (1 / 2)
        [frame_at 0, frame_at 1, flipped_frame_at 2, flipped_frame_at 3] [(1, 3 / 2)])
      [.decoder, .decoder, .decoder, .decoder, .worker]
      = some
        { buffer :=
            { time_base := 1 / 2
              q := [some (flipped_frame_at 2), some (flipped_frame_at 3)]
              current_size := 2 ^ 64 - 921600
              cont_flag := true }
          pending := [none]
          consumer := .idle
          windows := []
          results := [[flipped_frame_at 2, flipped_frame_at 3]] }
      ∧ get_video_frame_size (flipped_frame_at 2) = 2 ^ 64 - 460800
      ∧ max_size < 2 ^ 64 - 921600 := by
  decide!

/-- Claim C6.  When a push of a frame waits (line 106 holds), then after `signal_finish`
the same push does not wait and returns a buffer whose queue, element count and
`current_size` are those before the push: the frame is discarded. -/
theorem signal_finish_releases_push (b : Buffer) (avframe : AVFrame)
    (hblocked : b.push (some avframe) = none) :
    b.push_waits avframe = true
      ∧ b.signal_finish.push_waits avframe = false
      ∧ ∃ b1, b.signal_finish.push (some avframe) = some b1
          ∧ b1.q = b.q ∧ b1.q.length = b.q.length ∧ b1.current_size = b.current_size := by
  have hw : b.push_waits avframe = true := by
    cases hw : b.push_waits avframe with
    | true => rfl
    | false =>
      simp only [Buffer.push, hw, Bool.false_eq_true, if_false] at hblocked
      split at hblocked <;> simp at hblocked
  refine ⟨hw, by simp [Buffer.push_waits, Buffer.signal_finish], ?_⟩
  exact ⟨b.signal_finish, by simp [Buffer.push, Buffer.push_waits, Buffer.signal_finish],
    rfl, rfl, rfl⟩

/-- Claim C6 on a buffer that holds one 3.98GB worth of 8K frames: the next 8K frame waits,
and is discarded after `signal_finish`. -/
theorem signal_finish_releases_push_witness :
    stuck_8k.buffer.push (some (frame_8k 60)) = none
      ∧ ∃ b1, stuck_8k.buffer.signal_finish.push (some (frame_8k 60)) = some b1
          ∧ b1.q = stuck_8k.buffer.q ∧ b1.q.length = stuck_8k.buffer.q.length
          ∧ b1.current_size = stuck_8k.buffer.current_size :=
  ⟨by decide!, (signal_finish_releases_push stuck_8k.buffer (frame_8k 60) (by decide!)).2.2⟩

/-- Claim C7.  The decoder pushes the frames of the stream and then one null pointer
(lines 307-317).  In every state reached from the fresh buffer by pushes, steps of
`get_sequence` and calls of `signal_finish`, the deque holds at most one null pointer,
and if it holds one, that is its last entry. -/
theorem end_marker_invariant (time_base : ℚ) (frames : List AVFrame)
    (windows : List (ℚ × ℚ)) (t : Sys)
    (hreach : Reach (Sys.init time_base frames windows) t) :
    t.buffer.q.count none ≤ 1 ∧ (none ∈ t.buffer.q → t.buffer.q.getLast? = some none) := by
  have hinv : marker_last (t.buffer.q ++ t.pending) := by
    induction hreach with
    | refl => simpa [Sys.init, Buffer.set_time_base] using marker_last_init frames
    | tail _ hstep ih => exact step_marker_last _ _ hstep ih
  exact marker_last_count (marker_last_append_left hinv)

/-- Claim C7 on the end-to-end example: after the run `worker_early` the deque ends with its
only null pointer. -/
theorem end_marker_invariant_witness :
    Reach (Sys.init (1 / 2) example_stream [(1 / 2, 2), (0, 2 / 5)]) example_final_after
      ∧ example_final_after.buffer.q.count none ≤ 1
      ∧ (none ∈ example_final_after.buffer.q
          → example_final_after.buffer.q.getLast? = some none) := by
  have h : Reach (Sys.init (1 / 2) example_stream [(1 / 2, 2), (0, 2 / 5)])
      example_final_after :=
    run_schedule_reach worker_early _ _ (by decide!)
  exact ⟨h, end_marker_invariant _ _ _ _ h⟩

/-- Claim C8 fails on the code.  `getline` counts the newline, so a blank line has
`read = 1`, the test of line 529 does not skip it, `split` returns one field and the run
ends with "Bad task format".  With a blank line between two tasks the run throws after
the first task and reports one line; without it the run finishes and reports both. -/
theorem blank_line_aborts_run :
    split ['\n'] = (['\n'], [0])
      ∧ (Worker.run example_world "1 a.mp4 0 400\n2 b.mp4 500 2000\n".toList
          example_buffer).outcome = .finished
      ∧ (Worker.run example_world "1 a.mp4 0 400\n2 b.mp4 500 2000\n".toList
          example_buffer).report
        = ["1 a.mp4 0 400\n".toList, "2 b.mp4 500 2000\n".toList]
      ∧ (Worker.run example_world "1 a.mp4 0 400\n\n2 b.mp4 500 2000\n".toList
          example_buffer).outcome = .thrown "Bad task format"
      ∧ (Worker.run example_world "1 a.mp4 0 400\n\n2 b.mp4 500 2000\n".toList
          example_buffer).report
        = ["1 a.mp4 0 400\n".toList] := by
  decide!

/-- Claim C10 fails on the code.  On a stream of 8K frames the worker asks for the window
(0, 3).  After sixty pushes the state `stuck_8k` is reached: `signal_finish` has not
been called, the decoder has a frame to push and its push waits (the sixty-first frame
would exceed `max_size`), the worker waits at line 137 because the tail, at 2.36 s, is
before the window end, and a wake-up of the worker leaves the state as it is.  The only
step that changes the state is `signal_finish`. -/
theorem decoder_and_worker_block_each_other :
    Reach (Sys.init (1 / 25) stream_8k [(0, 3)]) stuck_8k
      ∧ stuck_8k.buffer.cont_flag = true
      ∧ stuck_8k.pending.head? = some (some (frame_8k 60))
      ∧ stuck_8k.buffer.push (some (frame_8k 60)) = none
      ∧ stuck_8k.consumer = .at_tail 0 3
      ∧ stuck_8k.buffer.await_tail 0 3 [] = .wait_tail stuck_8k.buffer
      ∧ ∀ t, Step stuck_8k t → t = stuck_8k ∨ t = finish_step stuck_8k := by
  have hd : decoder_step stuck_8k = none := by decide!
  have hw : worker_step stuck_8k = some stuck_8k := by decide!
  refine ⟨?_, rfl, by decide!, by decide!, rfl, by decide!, ?_⟩
  · exact run_schedule_reach (List.replicate 60 .decoder ++ [.worker]) _ _ (by decide!)
  · intro t ht
    cases ht with
    | decoder h => simp [hd] at h
    | worker h =>
      rw [hw] at h
      exact Or.inl (Option.some.inj h).symm
    | finish => exact Or.inr rfl

/-- Claim C11.  On a line without NUL the fields `split` returns, read as C strings from
left to right, are exactly the maximal runs of non-space characters of the line, in
the same order and in the same number; a line that holds only spaces, or nothing, yields
no field. -/
theorem split_returns_nonspace_runs (line : List Char) (hnul : Char.ofNat 0 ∉ line) :
    split_fields line = nonspace_runs line
      ∧ (split line).2.length = (nonspace_runs line).length
      ∧ ((∀ c ∈ line, c = ' ') → (split line).2 = []) := by
  have hfields : split_fields line = nonspace_runs line := by
    obtain ⟨htake, hdrop⟩ := take_length_takeWhile (fun c => decide (c = ' ')) line
    have hbnul : Char.ofNat 0 ∉ line.dropWhile (fun c => c = ' ') :=
      fun h => hnul ((List.dropWhile_sublist _).subset h)
    rw [nonspace_runs_spaces line]
    unfold split_fields split
    simp only [htake, hdrop]
    have hhead := dropWhile_space_head line
    generalize line.dropWhile (fun c => decide (c = ' ')) = body at hbnul hhead
    generalize line.takeWhile (fun c => decide (c = ' ')) = spaces
    have hloop := split_loop_fields body hbnul 0 true
    simp only [Nat.sub_zero, if_true] at hloop
    have hrest : (List.map (fun i => spaces.length + i) (split_loop body 0 true).2).map
        (c_str (spaces ++ (split_loop body 0 true).1))
        = nonspace_runs (body.dropWhile (fun c => c ≠ ' ')) := by
      rw [← hloop, List.map_map]
      apply List.map_congr_left
      intro j _
      exact c_str_append _ _ _
    rw [List.map_append, hrest]
    cases body with
    | nil => simp [nonspace_runs_nil]
    | cons c rest =>
      have hc := hhead c rest rfl
      have hfirst : c_str (spaces ++ (split_loop (c :: rest) 0 true).1) spaces.length
          = (c :: rest).takeWhile (fun c => c ≠ ' ') := by
        have := c_str_append spaces (split_loop (c :: rest) 0 true).1 0
        rw [Nat.add_zero] at this
        rw [this, split_loop_current (c :: rest) hbnul 0]
      rw [nonspace_runs_cons c rest hc]
      simp only [List.length_cons, gt_iff_lt, Nat.zero_lt_succ, if_true, List.map_cons,
        List.map_nil, hfirst, List.singleton_append]
      simp [hc]
  refine ⟨hfields, ?_, ?_⟩
  · rw [← hfields]
    simp [split_fields]
  · intro hall
    have hruns : nonspace_runs line = [] := by
      rw [nonspace_runs_spaces line]
      have : line.dropWhile (fun c => decide (c = ' ')) = [] := by
        rw [List.dropWhile_eq_nil_iff]
        intro c hc
        simpa using hall c hc
      rw [this, nonspace_runs_nil]
    have hlen : (split line).2.length = 0 := by
      have h := congrArg List.length hfields
      rw [hruns] at h
      simpa [split_fields] using h
    exact List.length_eq_zero.mp hlen

/-- Claim C11 on the line "  1  a.mp4 0 400 " with its newline: leading and repeated spaces
separate, and the newline after the last space is a field of its own. -/
theorem split_returns_nonspace_runs_witness :
    Char.ofNat 0 ∉ "  1  a.mp4 0 400 \n".toList
      ∧ split_fields "  1  a.mp4 0 400 \n".toList
        = ["1".toList, "a.mp4".toList, "0".toList, "400".toList, "\n".toList]
      ∧ nonspace_runs "  1  a.mp4 0 400 \n".toList
        = ["1".toList, "a.mp4".toList, "0".toList, "400".toList, "\n".toList]
      ∧ (split "  1  a.mp4 0 400 \n".toList).2 = [2, 5, 11, 13, 17] := by
  have h := split_returns_nonspace_runs "  1  a.mp4 0 400 \n".toList (by decide)
  refine ⟨by decide, ?_, by decide, by decide⟩
  rw [h.1]
  decide

end Cutter
